import Mathlib

/-!
Verification of the project-scaffolding command (`/create`) of this repository.

The development shallowly embeds the two source files:

* the template-cloning variant (`validateProjectName`, `replaceProjectNames`,
  `copyAndReplaceFile`, `copyAndReplaceDir`, and the command action), and
* the generator-driven variant (`validateProjectName`, the `allPomsExist`
  phase probe, and the command action that only emits instruction payloads).

Strings are embedded as `List Char`.  JavaScript's `String.replace` with a
global pattern is embedded by explicit left-to-right scanning functions, one
per pattern shape used by the source:

* `replaceLit` for fully literal patterns,
* `replaceTagPat` for patterns `P`, capture `([^<]+)`, closing literal `C`,
* `springRep` for the pattern `spring.application.name:\s*sns-demo`.

Filesystem state is embedded as a store of directory paths and file paths
with contents, paths being segment lists relative to the working directory.
-/

/-- `leadsWith p s` holds when the character list `s` starts with `p`
(the anchored-match primitive used by all pattern scanners). -/
def leadsWith {α : Type} [DecidableEq α] : List α → List α → Bool
  | [], _ => true
  | _ :: _, [] => false
  | a :: as, b :: bs => a = b && leadsWith as bs

/-- `hasSubstr p s` holds when `p` occurs as a contiguous substring of `s`. -/
def hasSubstr (p : List Char) : List Char → Bool
  | [] => p.isEmpty
  | c :: rest => leadsWith p (c :: rest) || hasSubstr p rest

theorem leadsWith_iff {α : Type} [DecidableEq α] (p s : List α) :
    leadsWith p s = true ↔ ∃ t, s = p ++ t := by
  induction p generalizing s with
  | nil => simp [leadsWith]
  | cons a as ih =>
    cases s with
    | nil => simp [leadsWith]
    | cons b bs =>
      simp only [leadsWith, Bool.and_eq_true, decide_eq_true_eq, ih]
      constructor
      · rintro ⟨rfl, t, rfl⟩; exact ⟨t, rfl⟩
      · rintro ⟨t, h⟩
        injection h with h1 h2
        exact ⟨h1.symm, t, h2⟩

theorem leadsWith_append {α : Type} [DecidableEq α] (p t : List α) :
    leadsWith p (p ++ t) = true := by
  rw [leadsWith_iff]; exact ⟨t, rfl⟩

theorem leadsWith_length {α : Type} [DecidableEq α] {p s : List α}
    (h : leadsWith p s = true) : p.length ≤ s.length := by
  rcases (leadsWith_iff p s).mp h with ⟨t, rfl⟩
  simp

theorem leadsWith_append_same {α : Type} [DecidableEq α] (a x y : List α) :
    leadsWith (a ++ x) (a ++ y) = leadsWith x y := by
  induction a with
  | nil => rfl
  | cons c cs ih => simp [leadsWith, ih]

theorem hasSubstr_iff (p s : List Char) :
    hasSubstr p s = true ↔ ∃ u v, s = u ++ p ++ v := by
  induction s with
  | nil =>
    simp only [hasSubstr, List.isEmpty_iff]
    constructor
    · rintro rfl; exact ⟨[], [], rfl⟩
    · rintro ⟨u, v, h⟩
      rcases List.append_eq_nil.mp h.symm with ⟨h1, h2⟩
      exact (List.append_eq_nil.mp h1).2
  | cons c rest ih =>
    simp only [hasSubstr, Bool.or_eq_true, leadsWith_iff, ih]
    constructor
    · rintro (⟨t, h⟩ | ⟨u, v, rfl⟩)
      · exact ⟨[], t, by simp [h]⟩
      · exact ⟨c :: u, v, rfl⟩
    · rintro ⟨u, v, h⟩
      cases u with
      | nil => exact Or.inl ⟨v, by simpa using h⟩
      | cons d u' =>
        injection h with h1 h2
        exact Or.inr ⟨u', v, h2⟩

/-- An occurrence inside an occurrence is an occurrence. -/
theorem hasSubstr_trans {q p s : List Char} (hqp : hasSubstr q p = true)
    (hps : hasSubstr p s = true) : hasSubstr q s = true := by
  rcases (hasSubstr_iff p s).mp hps with ⟨u, v, rfl⟩
  rcases (hasSubstr_iff q p).mp hqp with ⟨a, b, rfl⟩
  exact (hasSubstr_iff q _).mpr ⟨u ++ a, b ++ v, by simp⟩

/-- Every character of an occurring pattern occurs in the string. -/
theorem hasSubstr_mem {p s : List Char} (h : hasSubstr p s = true) :
    ∀ c ∈ p, c ∈ s := by
  rcases (hasSubstr_iff p s).mp h with ⟨u, v, rfl⟩
  intro c hc; simp [hc]

/-- If some character of `p` does not occur in `s`, then `p` does not occur. -/
theorem hasSubstr_eq_false_of_not_mem {p s : List Char} {c : Char}
    (hc : c ∈ p) (hs : c ∉ s) : hasSubstr p s = false := by
  by_contra h
  exact hs (hasSubstr_mem (by simpa using h) c hc)

/-- Scanning for a pattern that starts with `x` skips any block without `x`. -/
theorem hasSubstr_append_of_head_not_mem {x : Char} {p a b : List Char}
    (hx : x ∉ a) : hasSubstr (x :: p) (a ++ b) = hasSubstr (x :: p) b := by
  induction a with
  | nil => rfl
  | cons c cs ih =>
    have hcx : ¬ (x = c) := by
      rintro rfl; exact hx (List.mem_cons_self x cs)
    have hlw : leadsWith (x :: p) (c :: (cs ++ b)) = false := by
      simp [leadsWith, hcx]
    show (leadsWith (x :: p) (c :: (cs ++ b)) || hasSubstr (x :: p) (cs ++ b))
        = hasSubstr (x :: p) b
    rw [hlw, Bool.false_or]
    exact ih (fun hm => hx (List.mem_cons_of_mem c hm))

/-- The list of adjacent character pairs of a string (used to rule out
occurrences of a pattern whose adjacent pairs cannot all appear). -/
def adjPairs (l : List Char) : List (Char × Char) := l.zip l.tail

theorem adjPairs_cons (a b : Char) (l : List Char) :
    adjPairs (a :: b :: l) = (a, b) :: adjPairs (b :: l) := rfl

theorem mem_of_adjPairs {x : Char × Char} {l : List Char}
    (h : x ∈ adjPairs l) : x.1 ∈ l ∧ x.2 ∈ l := by
  induction l with
  | nil => simp [adjPairs] at h
  | cons a l ih =>
    cases l with
    | nil => simp [adjPairs] at h
    | cons b m =>
      rw [adjPairs_cons] at h
      rcases List.mem_cons.mp h with rfl | h'
      · exact ⟨List.mem_cons_self _ _, List.mem_cons_of_mem _ (List.mem_cons_self _ _)⟩
      · rcases ih h' with ⟨h1, h2⟩
        exact ⟨List.mem_cons_of_mem _ h1, List.mem_cons_of_mem _ h2⟩

theorem adjPairs_append_left {x : Char × Char} {a b : List Char}
    (h : x ∈ adjPairs a) : x ∈ adjPairs (a ++ b) := by
  induction a with
  | nil => simp [adjPairs] at h
  | cons c l ih =>
    cases l with
    | nil => simp [adjPairs] at h
    | cons d m =>
      rw [adjPairs_cons] at h
      rcases List.mem_cons.mp h with rfl | h'
      · exact List.mem_cons_self _ _
      · exact List.mem_cons_of_mem _ (ih h')

theorem adjPairs_append_right {x : Char × Char} {a b : List Char}
    (h : x ∈ adjPairs b) : x ∈ adjPairs (a ++ b) := by
  induction a with
  | nil => simpa using h
  | cons c l ih =>
    cases hl : l ++ b with
    | nil => rw [List.cons_append, hl]; rw [hl] at ih; exact ih
    | cons d m =>
      rw [List.cons_append, hl, adjPairs_cons]
      rw [hl] at ih
      exact List.mem_cons_of_mem _ ih

theorem adjPairs_append_mem {x : Char × Char} {a b : List Char}
    (h : x ∈ adjPairs (a ++ b)) :
    x ∈ adjPairs a ∨ x ∈ adjPairs b ∨ (x.1 ∈ a ∧ x.2 ∈ b) := by
  induction a with
  | nil => exact Or.inr (Or.inl (by simpa using h))
  | cons c l ih =>
    cases l with
    | nil =>
      cases b with
      | nil => simp [adjPairs] at h
      | cons e f =>
        rw [List.cons_append, List.nil_append, adjPairs_cons] at h
        rcases List.mem_cons.mp h with rfl | h'
        · exact Or.inr (Or.inr ⟨List.mem_cons_self _ _, List.mem_cons_self _ _⟩)
        · exact Or.inr (Or.inl h')
    | cons e f =>
      rw [List.cons_append, List.cons_append, adjPairs_cons, ← List.cons_append] at h
      rcases List.mem_cons.mp h with rfl | h'
      · exact Or.inl (by rw [adjPairs_cons]; exact List.mem_cons_self _ _)
      · rcases ih h' with h1 | h1 | ⟨h1, h2⟩
        · exact Or.inl (by
            rw [adjPairs_cons]; exact List.mem_cons_of_mem _ h1)
        · exact Or.inr (Or.inl h1)
        · exact Or.inr (Or.inr ⟨List.mem_cons_of_mem _ h1, h2⟩)

/-- Every adjacent pair of an occurring pattern is an adjacent pair of the
string containing it. -/
theorem hasSubstr_adjPairs {p s : List Char} (h : hasSubstr p s = true) :
    ∀ x ∈ adjPairs p, x ∈ adjPairs s := by
  rcases (hasSubstr_iff p s).mp h with ⟨u, v, rfl⟩
  intro x hx
  exact adjPairs_append_left (adjPairs_append_right (a := u) hx)

/-- Scanner for literal global replacement.  A positive skip count means the
scanner is inside an already-matched occurrence and moves over it without
re-matching (JavaScript's global replace resumes after each match). -/
def scanSkip (pat rep : List Char) : Nat → List Char → List Char
  | _ + 1, [] => []
  | k + 1, _ :: rest => scanSkip pat rep k rest
  | 0, [] => []
  | 0, c :: rest =>
    if pat ≠ [] ∧ leadsWith pat (c :: rest) = true then
      rep ++ scanSkip pat rep (pat.length - 1) rest
    else c :: scanSkip pat rep 0 rest

/-- Left-to-right, non-overlapping global replacement of the literal pattern
`pat` by `rep`, embedding JavaScript `s.replace(/pat/g, rep)` for a pattern
with no meta-characters. -/
def replaceLit (pat rep s : List Char) : List Char := scanSkip pat rep 0 s

theorem scanSkip_eq_drop (pat rep : List Char) :
    ∀ (s : List Char) (k : Nat),
      scanSkip pat rep k s = replaceLit pat rep (s.drop k) := by
  intro s
  induction s with
  | nil =>
    intro k
    cases k with
    | zero => rfl
    | succ k => rw [List.drop_nil]; rfl
  | cons c rest ih =>
    intro k
    cases k with
    | zero => rfl
    | succ k =>
      show scanSkip pat rep k rest = _
      rw [ih k, List.drop_succ_cons]

theorem replaceLit_nil (pat rep : List Char) : replaceLit pat rep [] = [] := rfl

theorem replaceLit_cons_pos {pat : List Char} (rep : List Char) {c : Char}
    {rest : List Char} (h1 : pat ≠ []) (h2 : leadsWith pat (c :: rest) = true) :
    replaceLit pat rep (c :: rest)
      = rep ++ replaceLit pat rep ((c :: rest).drop pat.length) := by
  obtain ⟨m, hm⟩ : ∃ m, pat.length = m + 1 :=
    Nat.exists_eq_add_of_lt (List.length_pos.mpr h1) |>.imp (fun m h => by omega)
  show (if pat ≠ [] ∧ leadsWith pat (c :: rest) = true then
      rep ++ scanSkip pat rep (pat.length - 1) rest
    else c :: scanSkip pat rep 0 rest) = _
  rw [if_pos ⟨h1, h2⟩, scanSkip_eq_drop, hm]
  simp only [Nat.add_sub_cancel, List.drop_succ_cons]

theorem replaceLit_cons_neg {pat : List Char} (rep : List Char) {c : Char}
    {rest : List Char} (h : ¬ (pat ≠ [] ∧ leadsWith pat (c :: rest) = true)) :
    replaceLit pat rep (c :: rest) = c :: replaceLit pat rep rest := by
  show (if pat ≠ [] ∧ leadsWith pat (c :: rest) = true then
      rep ++ scanSkip pat rep (pat.length - 1) rest
    else c :: scanSkip pat rep 0 rest) = _
  rw [if_neg h]
  rfl

/-- A matched occurrence at the head is consumed whole. -/
theorem replaceLit_exact {pat : List Char} (rep t : List Char) (h : pat ≠ []) :
    replaceLit pat rep (pat ++ t) = rep ++ replaceLit pat rep t := by
  obtain ⟨c, cs, hcc⟩ : ∃ c cs, pat = c :: cs := by
    cases pat with
    | nil => exact absurd rfl h
    | cons c cs => exact ⟨c, cs, rfl⟩
  have hform : pat ++ t = c :: (cs ++ t) := by rw [hcc]; rfl
  have hlw : leadsWith pat (pat ++ t) = true := leadsWith_append pat t
  rw [hform] at hlw
  rw [hform, replaceLit_cons_pos rep h hlw, ← hform, List.drop_left]

/-- If the pattern does not occur, literal replacement is the identity. -/
theorem replaceLit_of_not_hasSubstr {pat : List Char} (rep : List Char)
    {s : List Char} (h : hasSubstr pat s = false) :
    replaceLit pat rep s = s := by
  induction s with
  | nil => exact replaceLit_nil pat rep
  | cons c rest ih =>
    have hs : (leadsWith pat (c :: rest) || hasSubstr pat rest) = false := h
    have h1 : leadsWith pat (c :: rest) = false := by
      cases hlw : leadsWith pat (c :: rest) <;> simp [hlw] at hs ⊢
    have h2 : hasSubstr pat rest = false := by
      cases hsub : hasSubstr pat rest <;> simp [hsub] at hs ⊢
    rw [replaceLit_cons_neg rep (by simp [h1]), ih h2]

/-- Scanning skips over a block that cannot contain the pattern head. -/
theorem replaceLit_skip {x : Char} {pat : List Char} (rep : List Char)
    {a : List Char} (b : List Char) (hx : x ∉ a) :
    replaceLit (x :: pat) rep (a ++ b) = a ++ replaceLit (x :: pat) rep b := by
  induction a with
  | nil => rfl
  | cons c cs ih =>
    have hcx : ¬ (x = c) := by rintro rfl; exact hx (List.mem_cons_self x cs)
    have hlw : leadsWith (x :: pat) (c :: (cs ++ b)) = false := by
      simp [leadsWith, hcx]
    rw [List.cons_append, replaceLit_cons_neg rep (by simp [hlw]),
      ih (fun hm => hx (List.mem_cons_of_mem c hm)), List.cons_append]

theorem takeWhile_append_all {p : Char → Bool} {a : List Char} (b : List Char)
    (h : ∀ c ∈ a, p c = true) :
    (a ++ b).takeWhile p = a ++ b.takeWhile p := by
  induction a with
  | nil => rfl
  | cons c cs ih =>
    have hc : p c = true := h c (List.mem_cons_self c cs)
    simp only [List.cons_append, List.takeWhile_cons, hc, if_true]
    rw [ih (fun d hd => h d (List.mem_cons_of_mem c hd))]

theorem dropWhile_append_all {p : Char → Bool} {a : List Char} (b : List Char)
    (h : ∀ c ∈ a, p c = true) :
    (a ++ b).dropWhile p = b.dropWhile p := by
  induction a with
  | nil => rfl
  | cons c cs ih =>
    have hc : p c = true := h c (List.mem_cons_self c cs)
    simp only [List.cons_append, List.dropWhile_cons, hc, if_true]
    exact ih (fun d hd => h d (List.mem_cons_of_mem c hd))

theorem takeWhile_cons_false {p : Char → Bool} {c : Char} (l : List Char)
    (h : p c = false) : (c :: l).takeWhile p = [] := by
  simp [List.takeWhile_cons, h]

theorem dropWhile_cons_false {p : Char → Bool} {c : Char} (l : List Char)
    (h : p c = false) : (c :: l).dropWhile p = c :: l := by
  simp [List.dropWhile_cons, h]

/-- Anchored match of a pattern `P([^<]+)C` (a leading literal, a non-empty
greedy capture of non-`<` characters, a closing literal): on success returns
the replacement `R1 ++ capture ++ R2` and the number of characters the match
consumed.  This embeds the capture-group patterns of `replaceProjectNames`. -/
def tagMatch (P C R1 R2 s : List Char) : Option (List Char × Nat) :=
  if leadsWith P s = true then
    if (s.drop P.length).takeWhile (fun c => c != '<') ≠ [] ∧
        leadsWith C ((s.drop P.length).dropWhile (fun c => c != '<')) = true then
      some (R1 ++ (s.drop P.length).takeWhile (fun c => c != '<') ++ R2,
            P.length + ((s.drop P.length).takeWhile (fun c => c != '<')).length
              + C.length)
    else none
  else none

theorem tagMatch_some_pos {P C R1 R2 s : List Char}
    {pr : List Char × Nat} (h : tagMatch P C R1 R2 s = some pr) :
    0 < pr.2 := by
  unfold tagMatch at h
  split at h
  · split at h
    · rename_i hcap
      injection h with h'
      subst h'
      have := List.length_pos.mpr hcap.1
      simp only []
      omega
    · exact absurd h (by simp)
  · exact absurd h (by simp)

/-- Scanner for tag-pattern global replacement with skip counting. -/
def tagScan (P C R1 R2 : List Char) : Nat → List Char → List Char
  | _ + 1, [] => []
  | k + 1, _ :: rest => tagScan P C R1 R2 k rest
  | 0, [] => []
  | 0, c :: rest =>
    match tagMatch P C R1 R2 (c :: rest) with
    | some pr => pr.1 ++ tagScan P C R1 R2 (pr.2 - 1) rest
    | none => c :: tagScan P C R1 R2 0 rest

/-- Global left-to-right replacement for a `tagMatch` pattern, embedding
JavaScript `s.replace(/P([^<]+)C/g, R1 ++ "$1" ++ R2)`. -/
def replaceTagPat (P C R1 R2 s : List Char) : List Char := tagScan P C R1 R2 0 s

theorem tagScan_eq_drop (P C R1 R2 : List Char) :
    ∀ (s : List Char) (k : Nat),
      tagScan P C R1 R2 k s = replaceTagPat P C R1 R2 (s.drop k) := by
  intro s
  induction s with
  | nil =>
    intro k
    cases k with
    | zero => rfl
    | succ k => rw [List.drop_nil]; rfl
  | cons c rest ih =>
    intro k
    cases k with
    | zero => rfl
    | succ k =>
      show tagScan P C R1 R2 k rest = _
      rw [ih k, List.drop_succ_cons]

theorem replaceTagPat_nil (P C R1 R2 : List Char) :
    replaceTagPat P C R1 R2 [] = [] := rfl

theorem replaceTagPat_cons_some {P C R1 R2 : List Char} {c : Char}
    {rest : List Char} {pr : List Char × Nat}
    (h : tagMatch P C R1 R2 (c :: rest) = some pr) :
    replaceTagPat P C R1 R2 (c :: rest)
      = pr.1 ++ replaceTagPat P C R1 R2 ((c :: rest).drop pr.2) := by
  obtain ⟨m, hm⟩ : ∃ m, pr.2 = m + 1 := by
    have := tagMatch_some_pos h
    exact ⟨pr.2 - 1, by omega⟩
  have hstep : replaceTagPat P C R1 R2 (c :: rest)
      = pr.1 ++ tagScan P C R1 R2 (pr.2 - 1) rest := by
    show (match tagMatch P C R1 R2 (c :: rest) with
      | some pr => pr.1 ++ tagScan P C R1 R2 (pr.2 - 1) rest
      | none => c :: tagScan P C R1 R2 0 rest) = _
    rw [h]
  rw [hstep, tagScan_eq_drop, hm]
  simp only [Nat.add_sub_cancel, List.drop_succ_cons]

theorem replaceTagPat_cons_none {P C R1 R2 : List Char} {c : Char}
    {rest : List Char} (h : tagMatch P C R1 R2 (c :: rest) = none) :
    replaceTagPat P C R1 R2 (c :: rest) = c :: replaceTagPat P C R1 R2 rest := by
  show (match tagMatch P C R1 R2 (c :: rest) with
    | some pr => pr.1 ++ tagScan P C R1 R2 (pr.2 - 1) rest
    | none => c :: tagScan P C R1 R2 0 rest) = _
  rw [h]
  rfl

/-- If the leading literal of a tag pattern does not occur, the tag
replacement is the identity. -/
theorem replaceTagPat_of_not_hasSubstr (C R1 R2 : List Char) {P s : List Char}
    (h : hasSubstr P s = false) : replaceTagPat P C R1 R2 s = s := by
  induction s with
  | nil => exact replaceTagPat_nil P C R1 R2
  | cons c rest ih =>
    have hs : (leadsWith P (c :: rest) || hasSubstr P rest) = false := h
    have h1 : leadsWith P (c :: rest) = false := by
      cases hlw : leadsWith P (c :: rest) <;> simp [hlw] at hs ⊢
    have h2 : hasSubstr P rest = false := by
      cases hsub : hasSubstr P rest <;> simp [hsub] at hs ⊢
    have hnone : tagMatch P C R1 R2 (c :: rest) = none := by
      unfold tagMatch
      rw [if_neg (by simp [h1])]
    rw [replaceTagPat_cons_none hnone, ih h2]

/-- A full tag-pattern match at the head is rewritten to
`R1 ++ capture ++ R2` and scanning resumes after the closing literal. -/
theorem replaceTagPat_fire {P : List Char} (R1 R2 : List Char)
    {C cap : List Char} (t : List Char) (hP : P ≠ []) (hcap : cap ≠ [])
    (hcapLt : ∀ c ∈ cap, ¬ c = '<') {C' : List Char} (hC : C = '<' :: C') :
    replaceTagPat P C R1 R2 (P ++ cap ++ C ++ t)
      = R1 ++ cap ++ R2 ++ replaceTagPat P C R1 R2 t := by
  have hs : P ++ cap ++ C ++ t = P ++ (cap ++ C ++ t) := by simp
  have hdrop : (P ++ (cap ++ C ++ t)).drop P.length = cap ++ C ++ t :=
    List.drop_left P (cap ++ C ++ t)
  have hcapall : ∀ c ∈ cap, (fun c => c != '<') c = true := by
    intro c hc
    simpa using hcapLt c hc
  have htake : (cap ++ C ++ t).takeWhile (fun c => c != '<') = cap := by
    rw [List.append_assoc, takeWhile_append_all (C ++ t) hcapall, hC,
      List.cons_append, takeWhile_cons_false _ (by simp), List.append_nil]
  have hdropw : (cap ++ C ++ t).dropWhile (fun c => c != '<') = C ++ t := by
    rw [List.append_assoc, dropWhile_append_all (C ++ t) hcapall, hC,
      List.cons_append, dropWhile_cons_false _ (by simp), ← List.cons_append, ← hC]
  have hmatch : tagMatch P C R1 R2 (P ++ (cap ++ C ++ t))
      = some (R1 ++ cap ++ R2, P.length + cap.length + C.length) := by
    unfold tagMatch
    rw [if_pos (leadsWith_append P (cap ++ C ++ t)), hdrop, htake, hdropw]
    rw [if_pos ⟨hcap, leadsWith_append C t⟩]
  obtain ⟨c, rest, heq⟩ : ∃ c rest, P ++ (cap ++ C ++ t) = c :: rest := by
    cases P with
    | nil => exact absurd rfl hP
    | cons p0 ps => exact ⟨p0, ps ++ (cap ++ C ++ t), rfl⟩
  have hrem : (P ++ (cap ++ C ++ t)).drop (P.length + cap.length + C.length)
      = t := by
    have hlen : (P ++ cap ++ C).length = P.length + cap.length + C.length := by
      rw [List.length_append, List.length_append]
    rw [← hs, (by simp : P ++ cap ++ C ++ t = (P ++ cap ++ C) ++ t), ← hlen,
      List.drop_left]
  rw [hs, heq]
  rw [heq] at hmatch hrem
  rw [replaceTagPat_cons_some hmatch, hrem]

/-- The characters treated as whitespace by JavaScript's `\s` class. -/
def isJsWs (c : Char) : Bool :=
  c == ' ' || c == '\t' || c == '\n' || c == '\r' || c == '\x0b' || c == '\x0c' ||
  c == ' ' || c == ' ' ||
  (decide (' ' ≤ c) && decide (c ≤ ' ')) ||
  c == ' ' || c == ' ' || c == ' ' || c == ' ' ||
  c == '　' || c == '﻿'

/-- The fixed placeholder literal `sns-demo` that the rewriter keys on. -/
def snsDemo : List Char := "sns-demo".toList

/-- The literal of the namespace-segment pattern, `com.xiaohongshu.sns.demo`. -/
def pkgDemo : List Char := "com.xiaohongshu.sns.demo".toList

/-- The literal key of the `spring.application.name:` pattern. -/
def sprKey : List Char := "spring.application.name:".toList

/-- The literal `${projectName}` appearing in one template pattern. -/
def projVar : List Char := "$\x7bprojectName\x7d".toList

/-- Anchored match of `spring.application.name:\s*sns-demo`; on success
returns the replacement `spring.application.name: ` ++ name and the number
of characters consumed (the key, the greedy whitespace run and the
placeholder). -/
def springMatch (nm s : List Char) : Option (List Char × Nat) :=
  if leadsWith sprKey s = true then
    if leadsWith snsDemo ((s.drop sprKey.length).dropWhile isJsWs) = true then
      some ("spring.application.name: ".toList ++ nm,
            sprKey.length + ((s.drop sprKey.length).takeWhile isJsWs).length
              + snsDemo.length)
    else none
  else none

theorem springMatch_some_pos {nm s : List Char}
    {pr : List Char × Nat} (h : springMatch nm s = some pr) : 0 < pr.2 := by
  unfold springMatch at h
  split at h
  · split at h
    · injection h with h'
      subst h'
      have h24 : sprKey.length = 24 := by decide
      simp only []
      omega
    · exact absurd h (by simp)
  · exact absurd h (by simp)

/-- Scanner for the spring pattern with skip counting. -/
def springScan (nm : List Char) : Nat → List Char → List Char
  | _ + 1, [] => []
  | k + 1, _ :: rest => springScan nm k rest
  | 0, [] => []
  | 0, c :: rest =>
    match springMatch nm (c :: rest) with
    | some pr => pr.1 ++ springScan nm (pr.2 - 1) rest
    | none => c :: springScan nm 0 rest

/-- Global left-to-right replacement for
`spring.application.name:\s*sns-demo`, embedding the corresponding
`String.replace` call of `replaceProjectNames`. -/
def springRep (nm s : List Char) : List Char := springScan nm 0 s

theorem springScan_eq_drop (nm : List Char) :
    ∀ (s : List Char) (k : Nat),
      springScan nm k s = springRep nm (s.drop k) := by
  intro s
  induction s with
  | nil =>
    intro k
    cases k with
    | zero => rfl
    | succ k => rw [List.drop_nil]; rfl
  | cons c rest ih =>
    intro k
    cases k with
    | zero => rfl
    | succ k =>
      show springScan nm k rest = _
      rw [ih k, List.drop_succ_cons]

theorem springRep_nil (nm : List Char) : springRep nm [] = [] := rfl

theorem springRep_cons_none {nm : List Char} {c : Char} {rest : List Char}
    (h : springMatch nm (c :: rest) = none) :
    springRep nm (c :: rest) = c :: springRep nm rest := by
  show (match springMatch nm (c :: rest) with
    | some pr => pr.1 ++ springScan nm (pr.2 - 1) rest
    | none => c :: springScan nm 0 rest) = _
  rw [h]
  rfl

/-- A successful spring match exhibits an occurrence of `sns-demo`. -/
theorem springMatch_some_hasSubstr {nm s : List Char}
    {pr : List Char × Nat} (h : springMatch nm s = some pr) :
    hasSubstr snsDemo s = true := by
  unfold springMatch at h
  split at h
  · split at h
    · rename_i hkey hdemo
      rcases (leadsWith_iff sprKey s).mp hkey with ⟨r1, rfl⟩
      rcases (leadsWith_iff snsDemo _).mp hdemo with ⟨t, ht⟩
      have hr1 : r1 = r1.takeWhile isJsWs ++ (snsDemo ++ t) := by
        conv_lhs => rw [← List.takeWhile_append_dropWhile (p := isJsWs) (l := r1)]
        rw [List.drop_left sprKey r1] at ht
        rw [ht]
      rw [(by rw [← hr1] :
        sprKey ++ r1 = sprKey ++ (r1.takeWhile isJsWs ++ (snsDemo ++ t)))]
      exact (hasSubstr_iff _ _).mpr
        ⟨sprKey ++ r1.takeWhile isJsWs, t, by simp⟩
    · exact absurd h (by simp)
  · exact absurd h (by simp)

/-- If `sns-demo` does not occur, the spring replacement is the identity. -/
theorem springRep_of_not_hasSubstr (nm : List Char) {s : List Char}
    (h : hasSubstr snsDemo s = false) : springRep nm s = s := by
  induction s with
  | nil => exact springRep_nil nm
  | cons c rest ih =>
    have hs : (leadsWith snsDemo (c :: rest) || hasSubstr snsDemo rest) = false := h
    have h2 : hasSubstr snsDemo rest = false := by
      cases hsub : hasSubstr snsDemo rest <;> simp [hsub] at hs ⊢
    have hnone : springMatch nm (c :: rest) = none := by
      cases hm : springMatch nm (c :: rest) with
      | none => rfl
      | some pr =>
        have := springMatch_some_hasSubstr hm
        rw [h] at this
        exact absurd this (by simp)
    rw [springRep_cons_none hnone, ih h2]

/-- Embedding of `replaceProjectNames(content, oldName, newName)` from the
cloning variant: the ordered substitution pipeline over file content.  Note
that the source never reads `oldName`; every pattern is built from the
fixed literals `sns-demo`, `com.xiaohongshu.sns.demo` and
`${projectName}`. -/
def replaceProjectNames (content oldName newName : List Char) : List Char :=
  let cleanNewName := newName.filter (fun c => c != '-')
  let s1 := replaceLit pkgDemo ("com.xiaohongshu.sns.".toList ++ cleanNewName) content
  let s2 := replaceLit "<artifactId>sns-demo-parent</artifactId>".toList
    ("<artifactId>".toList ++ newName ++ "-parent</artifactId>".toList) s1
  let s3 := replaceTagPat "<artifactId>sns-demo-".toList "</artifactId>".toList
    ("<artifactId>".toList ++ newName ++ "-".toList) "</artifactId>".toList s2
  let s4 := replaceLit "<artifactId>sns-demo</artifactId>".toList
    ("<artifactId>".toList ++ newName ++ "</artifactId>".toList) s3
  let s5 := replaceLit "<name>sns-demo</name>".toList
    ("<name>".toList ++ newName ++ "</name>".toList) s4
  let s6 := replaceTagPat "<name>sns-demo-".toList "</name>".toList
    ("<name>".toList ++ newName ++ "-".toList) "</name>".toList s5
  let s7 := replaceTagPat "<module>sns-demo-".toList "</module>".toList
    ("<module>".toList ++ newName ++ "-".toList) "</module>".toList s6
  let s8 := replaceTagPat ("<artifactId>$\x7bprojectName\x7d-".toList) "</artifactId>".toList
    ("<artifactId>".toList ++ newName ++ "-".toList) "</artifactId>".toList s7
  let s9 := replaceLit "spring.application.name=sns-demo".toList
    ("spring.application.name=".toList ++ newName) s8
  let s10 := springRep newName s9
  replaceLit snsDemo newName s10

/-- Embedding of the per-entry destination renaming
`item.replace(/sns-demo/g, newName)` used by `copyAndReplaceDir`. -/
def renameItem (item newName : List Char) : List Char :=
  replaceLit snsDemo newName item

/-- Character class `[a-z]` of the validator regex. -/
def lowerAlpha (c : Char) : Bool := decide ('a' ≤ c) && decide (c ≤ 'z')

/-- Character class `[a-z0-9]` of the validator regex. -/
def lowerAlnum (c : Char) : Bool :=
  lowerAlpha c || (decide ('0' ≤ c) && decide (c ≤ '9'))

/-- Character class `[a-z0-9-]` of the validator regex. -/
def lowerAlnumDash (c : Char) : Bool := lowerAlnum c || c == '-'

/-- Embedding of `validateProjectName`, the anchored regular expression
`/^[a-z][a-z0-9-]*[a-z0-9]$|^[a-z]$/` (identical in both source files). -/
def validateProjectName : List Char → Bool
  | [] => false
  | [c] => lowerAlpha c
  | c :: d :: rest =>
    lowerAlpha c && ((d :: rest).dropLast.all lowerAlnumDash)
      && lowerAlnum ((d :: rest).getLast (List.cons_ne_nil d rest))

example : replaceProjectNames "prefix-demo-suffix".toList "demo".toList "zoo".toList
    = "prefix-demo-suffix".toList := by decide

example : replaceProjectNames "prefix-sns-demo-suffix".toList "demo".toList "zoo".toList
    = "prefix-zoo-suffix".toList := by decide

example : replaceProjectNames "<artifactId>sns-demo-app</artifactId>".toList
    "demo".toList "zoo".toList = "<artifactId>zoo-app</artifactId>".toList := by decide

example : replaceProjectNames "<artifactId>sns-demo-parent</artifactId>".toList
    "demo".toList "zoo".toList = "<artifactId>zoo-parent</artifactId>".toList := by decide

example : replaceProjectNames ("<artifactId>$\x7bprojectName\x7d-app</artifactId>".toList)
    "demo".toList "zoo".toList = "<artifactId>zoo-app</artifactId>".toList := by decide

example : replaceProjectNames "com.xiaohongshu.sns.demo.start".toList
    "demo".toList "my-app".toList = "com.xiaohongshu.sns.myapp.start".toList := by decide

example : replaceProjectNames "spring.application.name:   sns-demo".toList
    "demo".toList "zoo".toList = "spring.application.name: zoo".toList := by decide

example : validateProjectName "my-app2".toList = true := by decide
example : validateProjectName "-bad".toList = false := by decide
example : validateProjectName "Bad".toList = false := by decide
example : validateProjectName "a".toList = true := by decide
example : validateProjectName "".toList = false := by decide

/-- If `q` occurs in `p`, any string avoiding `q` also avoids `p`. -/
theorem hasSubstr_false_of_inner {q p s : List Char}
    (hin : hasSubstr q p = true) (h : hasSubstr q s = false) :
    hasSubstr p s = false := by
  cases hps : hasSubstr p s with
  | false => rfl
  | true =>
    rw [hasSubstr_trans hin hps] at h
    exact absurd h (by simp)

theorem not_mem_append3 {x : Char} {a s b : List Char}
    (ha : x ∉ a) (hs : x ∉ s) (hb : x ∉ b) : x ∉ a ++ s ++ b := by
  intro hm
  rcases List.mem_append.mp hm with h1 | h1
  · rcases List.mem_append.mp h1 with h2 | h2
    · exact ha h2
    · exact hs h2
  · exact hb h1

/-- Comparing a lowercase-letter word followed by `<` against another
lowercase-letter word followed by `<`: a prefix match forces the words to be
equal (no letter can match `<`). -/
theorem leadsWith_letters_block {p : List Char} :
    ∀ {s r r' : List Char}, (∀ c ∈ p, lowerAlpha c = true) →
      (∀ c ∈ s, lowerAlpha c = true) →
      leadsWith (p ++ '<' :: r) (s ++ '<' :: r') = true → p = s := by
  induction p with
  | nil =>
    intro s r r' _ hs h
    cases s with
    | nil => rfl
    | cons c s' =>
      exfalso
      rw [List.nil_append, List.cons_append] at h
      have hc : ('<' = c) := by
        have := h
        simp only [leadsWith, Bool.and_eq_true, decide_eq_true_eq] at this
        exact this.1
      have := hs c (List.mem_cons_self c s')
      rw [← hc] at this
      exact absurd this (by decide)
  | cons a p' ih =>
    intro s r r' hp hs h
    cases s with
    | nil =>
      exfalso
      rw [List.cons_append, List.nil_append] at h
      have ha : (a = '<') := by
        simp only [leadsWith, Bool.and_eq_true, decide_eq_true_eq] at h
        exact h.1
      have := hp a (List.mem_cons_self a p')
      rw [ha] at this
      exact absurd this (by decide)
    | cons c s' =>
      rw [List.cons_append, List.cons_append] at h
      simp only [leadsWith, Bool.and_eq_true, decide_eq_true_eq] at h
      have := ih (fun d hd => hp d (List.mem_cons_of_mem a hd))
        (fun d hd => hs d (List.mem_cons_of_mem c hd)) h.2
      rw [h.1, this]

/-- A tag match that ends the string. -/
theorem replaceTagPat_fire_nil {P : List Char} (R1 R2 : List Char)
    {C cap : List Char} (hP : P ≠ []) (hcap : cap ≠ [])
    (hcapLt : ∀ c ∈ cap, ¬ c = '<') {C' : List Char} (hC : C = '<' :: C') :
    replaceTagPat P C R1 R2 (P ++ cap ++ C) = R1 ++ cap ++ R2 := by
  have h := replaceTagPat_fire R1 R2 [] hP hcap hcapLt hC
  rw [List.append_nil, replaceTagPat_nil, List.append_nil] at h
  exact h

/-- C10: the Token Rewriter's output does not depend on the supplied
placeholder-name argument: for every content string, target name and pair
of placeholder names, the two rewrites agree (the substitution patterns are
the fixed literals, and `oldName` is never read). -/
theorem replaceProjectNames_oldName_irrelevant
    (content o1 o2 newName : List Char) :
    replaceProjectNames content o1 newName
      = replaceProjectNames content o2 newName := rfl

/-- C1 (counterexample): the content
`<artifactId>${projectName}-app</artifactId>` contains neither the supplied
placeholder `demo` nor the fixed placeholder `sns-demo`, yet the rewriter
changes it, so a rewrite without an occurrence of the placeholder is not
always a no-op. -/
theorem replaceProjectNames_noop_counterexample :
    hasSubstr "demo".toList
        "<artifactId>$\x7bprojectName\x7d-app</artifactId>".toList = false
  ∧ hasSubstr snsDemo
        "<artifactId>$\x7bprojectName\x7d-app</artifactId>".toList = false
  ∧ replaceProjectNames
        "<artifactId>$\x7bprojectName\x7d-app</artifactId>".toList
        "demo".toList "zoo".toList
      ≠ "<artifactId>$\x7bprojectName\x7d-app</artifactId>".toList :=
  ⟨by decide, by decide, by decide⟩

/-- C1 (amended): the rewriter keys on the fixed literals `sns-demo`,
`com.xiaohongshu.sns.demo` and `${projectName}`; content containing none of
these is returned unchanged, and a file or directory name containing no
`sns-demo` is renamed to itself. -/
theorem replaceProjectNames_noop (content item oldName newName : List Char) :
    (hasSubstr snsDemo content = false → hasSubstr pkgDemo content = false →
      hasSubstr projVar content = false →
      replaceProjectNames content oldName newName = content)
  ∧ (hasSubstr snsDemo item = false → renameItem item newName = item) := by
  constructor
  · intro h1 h2 h3
    show replaceLit snsDemo newName _ = content
    rw [replaceLit_of_not_hasSubstr _ h2]
    rw [replaceLit_of_not_hasSubstr _ (hasSubstr_false_of_inner (by decide) h1)]
    rw [replaceTagPat_of_not_hasSubstr _ _ _
      (hasSubstr_false_of_inner (q := snsDemo) (by decide) h1)]
    rw [replaceLit_of_not_hasSubstr _ (hasSubstr_false_of_inner (by decide) h1)]
    rw [replaceLit_of_not_hasSubstr _ (hasSubstr_false_of_inner (by decide) h1)]
    rw [replaceTagPat_of_not_hasSubstr _ _ _
      (hasSubstr_false_of_inner (q := snsDemo) (by decide) h1)]
    rw [replaceTagPat_of_not_hasSubstr _ _ _
      (hasSubstr_false_of_inner (q := snsDemo) (by decide) h1)]
    rw [replaceTagPat_of_not_hasSubstr _ _ _
      (hasSubstr_false_of_inner (q := projVar) (by decide) h3)]
    rw [replaceLit_of_not_hasSubstr _ (hasSubstr_false_of_inner (by decide) h1)]
    rw [springRep_of_not_hasSubstr _ h1]
    rw [replaceLit_of_not_hasSubstr _ h1]
  · intro h
    exact replaceLit_of_not_hasSubstr _ h

/-- C1 (witness): a concrete content and name without any of the fixed
literals are left unchanged. -/
theorem replaceProjectNames_noop_witness :
    replaceProjectNames "hello world".toList "demo".toList "zoo".toList
      = "hello world".toList
  ∧ renameItem "notes.txt".toList "zoo".toList = "notes.txt".toList :=
  ⟨(replaceProjectNames_noop "hello world".toList "notes.txt".toList
      "demo".toList "zoo".toList).1 (by decide) (by decide) (by decide),
   (replaceProjectNames_noop "hello world".toList "notes.txt".toList
      "demo".toList "zoo".toList).2 (by decide)⟩

/-- C2 (counterexample): the catch-all pass replaces the fixed literal
`sns-demo`, not the supplied placeholder `demo`, so
`rewrite("prefix-demo-suffix", "demo", "zoo")` is returned unchanged rather
than as `"prefix-zoo-suffix"`. -/
theorem replaceProjectNames_catchall_counterexample :
    replaceProjectNames "prefix-demo-suffix".toList "demo".toList "zoo".toList
      = "prefix-demo-suffix".toList
  ∧ replaceProjectNames "prefix-demo-suffix".toList "demo".toList "zoo".toList
      ≠ "prefix-zoo-suffix".toList :=
  ⟨by decide, by decide⟩

/-- C2 (amended): the final catch-all pass replaces every remaining literal
occurrence of the fixed placeholder `sns-demo` with the target name:
`rewrite("prefix-sns-demo-suffix", "demo", "zoo")` yields
`"prefix-zoo-suffix"`, and the result contains no occurrence of `sns-demo`
(nor of `demo`). -/
theorem replaceProjectNames_catchall :
    replaceProjectNames "prefix-sns-demo-suffix".toList "demo".toList
        "zoo".toList = "prefix-zoo-suffix".toList
  ∧ hasSubstr snsDemo
      (replaceProjectNames "prefix-sns-demo-suffix".toList "demo".toList
        "zoo".toList) = false
  ∧ hasSubstr "demo".toList
      (replaceProjectNames "prefix-sns-demo-suffix".toList "demo".toList
        "zoo".toList) = false :=
  ⟨by decide, by decide, by decide⟩

/-- One scanning step on a string `'<' :: (a ++ b)` whose head fails to
match and whose block `a` cannot restart a `'<'`-headed pattern. -/
theorem hasSubstr_block_cons {p' a b : List Char} (ha : '<' ∉ a)
    (hlead : leadsWith ('<' :: p') ('<' :: (a ++ b)) = false)
    (hb : hasSubstr ('<' :: p') b = false) :
    hasSubstr ('<' :: p') ('<' :: (a ++ b)) = false := by
  show (leadsWith ('<' :: p') ('<' :: (a ++ b))
    || hasSubstr ('<' :: p') (a ++ b)) = false
  rw [hlead, Bool.false_or, hasSubstr_append_of_head_not_mem ha, hb]

/-- C3: a structural declaration `<artifactId>sns-demo-SUF</artifactId>`
with a non-empty lowercase-letter suffix rewrites under target name `zoo`
to `<artifactId>zoo-SUF</artifactId>` — the suffix is preserved and no
partially rewritten mix arises, because the structural passes run before
the catch-all pass. -/
theorem replaceProjectNames_structural (suf oldName : List Char)
    (hne : suf ≠ []) (hlet : ∀ c ∈ suf, lowerAlpha c = true) :
    replaceProjectNames
        ("<artifactId>sns-demo-".toList ++ suf ++ "</artifactId>".toList)
        oldName "zoo".toList
      = "<artifactId>zoo-".toList ++ suf ++ "</artifactId>".toList := by
  have hns : '<' ∉ suf := fun hm => absurd (hlet '<' hm) (by decide)
  have hdot : '.' ∉ suf := fun hm => absurd (hlet '.' hm) (by decide)
  have hdollar : '$' ∉ suf := fun hm => absurd (hlet '$' hm) (by decide)
  have hdash : '-' ∉ suf := fun hm => absurd (hlet '-' hm) (by decide)
  have hsufLt : ∀ c ∈ suf, ¬ c = '<' := fun c hc hx => hns (hx ▸ hc)
  by_cases hpar : suf = "parent".toList
  · subst hpar
    exact (by decide : replaceProjectNames
      ("<artifactId>sns-demo-".toList ++ "parent".toList
        ++ "</artifactId>".toList) "demo".toList "zoo".toList
      = "<artifactId>zoo-".toList ++ "parent".toList
        ++ "</artifactId>".toList)
  · have hpkg : hasSubstr pkgDemo
        ("<artifactId>sns-demo-".toList ++ suf ++ "</artifactId>".toList)
        = false :=
      hasSubstr_eq_false_of_not_mem (c := '.') (by decide)
        (not_mem_append3 (by decide) hdot (by decide))
    have hpar2 : hasSubstr "<artifactId>sns-demo-parent</artifactId>".toList
        ("<artifactId>sns-demo-".toList ++ suf ++ "</artifactId>".toList)
        = false := by
      have e1 : "<artifactId>sns-demo-".toList ++ suf ++ "</artifactId>".toList
          = '<' :: (("artifactId>sns-demo-".toList ++ suf)
            ++ "</artifactId>".toList) := by
        show ('<' :: "artifactId>sns-demo-".toList) ++ suf
            ++ "</artifactId>".toList = _
        rw [List.cons_append, List.cons_append]
      rw [e1]
      rw [show "<artifactId>sns-demo-parent</artifactId>".toList
          = '<' :: "artifactId>sns-demo-parent</artifactId>".toList from rfl]
      apply hasSubstr_block_cons
      · intro hm
        rcases List.mem_append.mp hm with hm1 | hm1
        · exact absurd hm1 (by decide)
        · exact hns hm1
      · have e2 : ('<' : Char) :: (("artifactId>sns-demo-".toList ++ suf)
            ++ "</artifactId>".toList)
            = "<artifactId>sns-demo-".toList
              ++ (suf ++ "</artifactId>".toList) := by
          show _ = ('<' :: "artifactId>sns-demo-".toList)
            ++ (suf ++ "</artifactId>".toList)
          rw [List.cons_append, List.append_assoc]
        rw [e2]
        rw [show ('<' : Char) :: "artifactId>sns-demo-parent</artifactId>".toList
            = "<artifactId>sns-demo-".toList
              ++ ("parent".toList ++ "</artifactId>".toList) from by decide]
        rw [leadsWith_append_same]
        cases hq : leadsWith ("parent".toList ++ "</artifactId>".toList)
            (suf ++ "</artifactId>".toList) with
        | false => rfl
        | true =>
          exfalso
          rw [show ("</artifactId>".toList : List Char)
              = '<' :: "/artifactId>".toList from rfl] at hq
          exact hpar ((leadsWith_letters_block (by decide) hlet hq).symm)
      · decide
    show replaceLit snsDemo "zoo".toList _ = _
    rw [replaceLit_of_not_hasSubstr _ hpkg]
    rw [replaceLit_of_not_hasSubstr _ hpar2]
    rw [replaceTagPat_fire_nil _ _ (by decide) hne hsufLt
      (show ("</artifactId>".toList : List Char)
        = '<' :: "/artifactId>".toList from rfl)]
    rw [show "<artifactId>".toList ++ "zoo".toList ++ "-".toList
        = "<artifactId>zoo-".toList from by decide]
    have hs_sns : hasSubstr snsDemo
        ("<artifactId>zoo-".toList ++ suf ++ "</artifactId>".toList)
        = false := by
      cases hq : hasSubstr snsDemo
          ("<artifactId>zoo-".toList ++ suf ++ "</artifactId>".toList) with
      | false => rfl
      | true =>
        exfalso
        have hp := hasSubstr_adjPairs hq ('s', '-') (by decide)
        rw [List.append_assoc] at hp
        rcases adjPairs_append_mem hp with h1 | h1 | ⟨h1, h2⟩
        · exact absurd h1 (by decide)
        · rcases adjPairs_append_mem h1 with g1 | g1 | ⟨g1, g2⟩
          · exact hdash (mem_of_adjPairs g1).2
          · exact absurd g1 (by decide)
          · exact absurd g2 (by decide)
        · exact absurd h1 (by decide)
    have hs_dollar : hasSubstr projVar
        ("<artifactId>zoo-".toList ++ suf ++ "</artifactId>".toList)
        = false :=
      hasSubstr_eq_false_of_not_mem (c := '$') (by decide)
        (not_mem_append3 (by decide) hdollar (by decide))
    rw [replaceLit_of_not_hasSubstr _
      (hasSubstr_false_of_inner (by decide) hs_sns)]
    rw [replaceLit_of_not_hasSubstr _
      (hasSubstr_false_of_inner (by decide) hs_sns)]
    rw [replaceTagPat_of_not_hasSubstr _ _ _
      (hasSubstr_false_of_inner (q := snsDemo) (by decide) hs_sns)]
    rw [replaceTagPat_of_not_hasSubstr _ _ _
      (hasSubstr_false_of_inner (q := snsDemo) (by decide) hs_sns)]
    rw [replaceTagPat_of_not_hasSubstr _ _ _
      (hasSubstr_false_of_inner (q := projVar) (by decide) hs_dollar)]
    rw [replaceLit_of_not_hasSubstr _
      (hasSubstr_false_of_inner (by decide) hs_sns)]
    rw [springRep_of_not_hasSubstr _ hs_sns]
    rw [replaceLit_of_not_hasSubstr _ hs_sns]

/-- C3 (witness): the declaration for `sns-demo-app` rewrites to the
declaration for `zoo-app`. -/
theorem replaceProjectNames_structural_witness :
    replaceProjectNames "<artifactId>sns-demo-app</artifactId>".toList
        "demo".toList "zoo".toList
      = "<artifactId>zoo-app</artifactId>".toList := by
  have h := replaceProjectNames_structural "app".toList "demo".toList
    (by decide) (by decide)
  rw [show "<artifactId>sns-demo-".toList ++ "app".toList
      ++ "</artifactId>".toList
      = "<artifactId>sns-demo-app</artifactId>".toList from by decide] at h
  rw [show "<artifactId>zoo-".toList ++ "app".toList ++ "</artifactId>".toList
      = "<artifactId>zoo-app</artifactId>".toList from by decide] at h
  exact h

/-- The naming grammar as the specification states it: non-empty, only
lowercase letters, digits and hyphens, starts with a lowercase letter, and
does not end with a hyphen (starting with a hyphen is already excluded by
the leading-letter requirement). -/
def specValidName : List Char → Bool
  | [] => false
  | c :: rest =>
    lowerAlpha c && (c :: rest).all lowerAlnumDash
      && !((c :: rest).getLast (List.cons_ne_nil c rest) == '-')

theorem lowerAlnumDash_of_lowerAlpha {c : Char} (h : lowerAlpha c = true) :
    lowerAlnumDash c = true := by
  simp [lowerAlnumDash, lowerAlnum, h]

/-- C8: `validateProjectName` accepts exactly the strings of the naming
grammar (lowercase letters, digits and hyphens, leading letter, no leading
or trailing hyphen, single letters allowed), and in particular accepts
`my-app2` and `a` while rejecting `-bad`, `Bad` and the empty string. -/
theorem validateProjectName_spec :
    (∀ nm : List Char, validateProjectName nm = specValidName nm)
  ∧ validateProjectName "my-app2".toList = true
  ∧ validateProjectName "-bad".toList = false
  ∧ validateProjectName "Bad".toList = false
  ∧ validateProjectName "a".toList = true
  ∧ validateProjectName "".toList = false := by
  refine ⟨?_, by decide, by decide, by decide, by decide, by decide⟩
  intro nm
  cases nm with
  | nil => rfl
  | cons c rest =>
    cases rest with
    | nil =>
      show lowerAlpha c
        = (lowerAlpha c && (lowerAlnumDash c && true) && !(c == '-'))
      by_cases hc2 : c = '-'
      · subst hc2; decide
      · have hbeq : (c == '-') = false := by simp [hc2]
        rw [hbeq, Bool.and_true, Bool.not_false, Bool.and_true]
        cases ha : lowerAlpha c with
        | false => simp
        | true => rw [lowerAlnumDash_of_lowerAlpha ha]; simp
    | cons d rest2 =>
      have hsplit : (d :: rest2).dropLast
          ++ [(d :: rest2).getLast (List.cons_ne_nil d rest2)] = d :: rest2 :=
        List.dropLast_append_getLast (List.cons_ne_nil d rest2)
      show (lowerAlpha c && (d :: rest2).dropLast.all lowerAlnumDash
          && lowerAlnum ((d :: rest2).getLast (List.cons_ne_nil d rest2)))
        = (lowerAlpha c && (c :: d :: rest2).all lowerAlnumDash
          && !((c :: d :: rest2).getLast
            (List.cons_ne_nil c (d :: rest2)) == '-'))
      rw [List.getLast_cons (List.cons_ne_nil d rest2)]
      have hall : (c :: d :: rest2).all lowerAlnumDash
          = (lowerAlnumDash c && ((d :: rest2).dropLast.all lowerAlnumDash
            && lowerAlnumDash ((d :: rest2).getLast
              (List.cons_ne_nil d rest2)))) := by
        rw [List.all_cons]
        conv_lhs => rw [← hsplit]
        rw [List.all_append, List.all_cons, List.all_nil, Bool.and_true]
      rw [hall]
      by_cases hc2 : (d :: rest2).getLast (List.cons_ne_nil d rest2) = '-'
      · rw [hc2]
        simp [show lowerAlnum '-' = false from by decide,
          show lowerAlnumDash '-' = true from by decide]
      · have hbeq : ((d :: rest2).getLast (List.cons_ne_nil d rest2) == '-')
            = false := by simp [hc2]
        have hL2 : lowerAlnumDash ((d :: rest2).getLast
            (List.cons_ne_nil d rest2))
            = lowerAlnum ((d :: rest2).getLast (List.cons_ne_nil d rest2)) := by
          simp [lowerAlnumDash, hc2]
        rw [hbeq, hL2, Bool.not_false, Bool.and_true]
        cases ha : lowerAlpha c with
        | false => simp
        | true =>
          rw [lowerAlnumDash_of_lowerAlpha ha]
          cases (d :: rest2).dropLast.all lowerAlnumDash <;>
            cases lowerAlnum ((d :: rest2).getLast (List.cons_ne_nil d rest2)) <;>
              simp

/-- Filesystem paths as segment lists relative to the working directory. -/
abbrev FPath := List (List Char)

/-- The filesystem store the cloning variant writes into: the set of
existing directories and the files with their contents, both in creation
order. -/
structure FsState where
  dirs : List FPath
  files : List (FPath × List Char)
  deriving DecidableEq

/-- Embedding of `fs.existsSync` on the destination store. -/
def existsFS (st : FsState) (p : FPath) : Bool :=
  decide (p ∈ st.dirs) || decide (p ∈ st.files.map Prod.fst)

/-- Embedding of `fs.mkdirSync(p, { recursive: true })`: create every
missing directory along the path, outermost first. -/
def mkdirsAlong (st : FsState) (cur : FPath) : List (List Char) → FsState
  | [] => st
  | seg :: rest =>
    let next := cur ++ [seg]
    let st' := if next ∈ st.dirs then st
      else { st with dirs := st.dirs ++ [next] }
    mkdirsAlong st' next rest

def mkdirRec (p : FPath) (st : FsState) : FsState := mkdirsAlong st [] p

/-- Embedding of `fs.writeFileSync`: overwrite the content if the path is
already a file, otherwise append a new file entry. -/
def setFile : List (FPath × List Char) → FPath → List Char
    → List (FPath × List Char)
  | [], p, c => [(p, c)]
  | (q, d) :: rest, p, c =>
    if q = p then (q, c) :: rest else (q, d) :: setFile rest p c

mutual
/-- A source-tree entry: a file with content, or a directory with entries
(mutual with the entry list so that all traversals are structural). -/
inductive FsTree where
  | file (nm : List Char) (content : List Char) : FsTree
  | dir (nm : List Char) (sub : FsEntries) : FsTree
/-- A list of source-tree entries. -/
inductive FsEntries where
  | nil : FsEntries
  | cons (e : FsTree) (es : FsEntries) : FsEntries
end

/-- Embedding of `copyAndReplaceFile(srcFile, destFile, oldName, newName)`:
ensure the destination directory exists, then write the rewritten content
to the destination file. -/
def copyAndReplaceFile (oldName newName srcContent : List Char)
    (destFile : FPath) (st : FsState) : FsState :=
  let destDir := destFile.dropLast
  let st1 := if existsFS st destDir then st else mkdirRec destDir st
  { st1 with
    files := setFile st1.files destFile
      (replaceProjectNames srcContent oldName newName) }

mutual
/-- Embedding of the per-entry step of the `copyAndReplaceDir` loop:
files are copied with rewritten content, directories are created (if
absent) and cloned recursively; each entry name is renamed with
`renameItem`. -/
def cloneItem (oldName newName : List Char) : FsTree → FPath → FsState → FsState
  | FsTree.file nm c, d, st =>
    copyAndReplaceFile oldName newName c (d ++ [renameItem nm newName]) st
  | FsTree.dir nm sub, d, st =>
    cloneItems oldName newName sub (d ++ [renameItem nm newName])
      (if existsFS st (d ++ [renameItem nm newName]) then st
       else mkdirRec (d ++ [renameItem nm newName]) st)

/-- The `for (const item of items)` loop of `copyAndReplaceDir`. -/
def cloneItems (oldName newName : List Char) : FsEntries → FPath → FsState → FsState
  | FsEntries.nil, _, st => st
  | FsEntries.cons e es, d, st =>
    cloneItems oldName newName es d (cloneItem oldName newName e d st)
end

/-- Embedding of `copyAndReplaceDir(srcDir, destDir, oldName, newName)`
applied to a source directory with entries `src`. -/
def copyAndReplaceDir (oldName newName : List Char) (src : FsEntries)
    (destDir : FPath) (st : FsState) : FsState :=
  cloneItems oldName newName src destDir
    (if existsFS st destDir then st else mkdirRec destDir st)

mutual
/-- Number of files in a source entry. -/
def countFilesT : FsTree → Nat
  | FsTree.file _ _ => 1
  | FsTree.dir _ sub => countFiles sub
/-- Number of files in a source tree. -/
def countFiles : FsEntries → Nat
  | FsEntries.nil => 0
  | FsEntries.cons e es => countFilesT e + countFiles es
end

mutual
/-- Number of directories in a source entry. -/
def countDirsT : FsTree → Nat
  | FsTree.file _ _ => 0
  | FsTree.dir _ sub => 1 + countDirs sub
/-- Number of directories in a source tree. -/
def countDirs : FsEntries → Nat
  | FsEntries.nil => 0
  | FsEntries.cons e es => countDirsT e + countDirs es
end

mutual
/-- The destination files a successful clone of one entry produces:
renamed path and rewritten content. -/
def expFilesT (oldName newName : List Char) : FsTree → FPath → List (FPath × List Char)
  | FsTree.file nm c, d =>
    [(d ++ [renameItem nm newName], replaceProjectNames c oldName newName)]
  | FsTree.dir nm sub, d =>
    expFiles oldName newName sub (d ++ [renameItem nm newName])
/-- The destination files a successful clone of an entry list produces. -/
def expFiles (oldName newName : List Char) : FsEntries → FPath → List (FPath × List Char)
  | FsEntries.nil, _ => []
  | FsEntries.cons e es, d =>
    expFilesT oldName newName e d ++ expFiles oldName newName es d
end

mutual
/-- The destination directories a successful clone of one entry creates. -/
def expDirsT (newName : List Char) : FsTree → FPath → List FPath
  | FsTree.file _ _, _ => []
  | FsTree.dir nm sub, d =>
    (d ++ [renameItem nm newName])
      :: expDirs newName sub (d ++ [renameItem nm newName])
/-- The destination directories a successful clone of an entry list creates. -/
def expDirs (newName : List Char) : FsEntries → FPath → List FPath
  | FsEntries.nil, _ => []
  | FsEntries.cons e es, d => expDirsT newName e d ++ expDirs newName es d
end

mutual
/-- The source files of one entry, with paths relative to its parent. -/
def srcFilesRelT : FsTree → List (FPath × List Char)
  | FsTree.file nm c => [([nm], c)]
  | FsTree.dir nm sub => (srcFilesRel sub).map (fun pc => (nm :: pc.1, pc.2))
/-- The source files of an entry list, with relative paths. -/
def srcFilesRel : FsEntries → List (FPath × List Char)
  | FsEntries.nil => []
  | FsEntries.cons e es => srcFilesRelT e ++ srcFilesRel es
end

mutual
/-- The source directories of one entry, with relative paths. -/
def srcDirsRelT : FsTree → List FPath
  | FsTree.file _ _ => []
  | FsTree.dir nm sub => [nm] :: (srcDirsRel sub).map (fun p => nm :: p)
/-- The source directories of an entry list, with relative paths. -/
def srcDirsRel : FsEntries → List FPath
  | FsEntries.nil => []
  | FsEntries.cons e es => srcDirsRelT e ++ srcDirsRel es
end

example :
    copyAndReplaceDir "demo".toList "zoo".toList
      (FsEntries.cons (FsTree.file "pom.xml".toList "a".toList)
        (FsEntries.cons (FsTree.dir "sns-demo-app".toList
          (FsEntries.cons (FsTree.file "pom.xml".toList "b".toList)
            FsEntries.nil))
          FsEntries.nil))
      ["zoo".toList] ⟨[], []⟩
    = ⟨[["zoo".toList], ["zoo".toList, "zoo-app".toList]],
       [(["zoo".toList, "pom.xml".toList], "a".toList),
        (["zoo".toList, "zoo-app".toList, "pom.xml".toList], "b".toList)]⟩ := by
  decide

theorem existsFS_eq_true_of_dir {st : FsState} {p : FPath}
    (h : p ∈ st.dirs) : existsFS st p = true := by
  simp [existsFS, h]

theorem existsFS_eq_false {st : FsState} {p : FPath}
    (h1 : p ∉ st.dirs) (h2 : p ∉ st.files.map Prod.fst) :
    existsFS st p = false := by
  simp [existsFS, h1, h2]

/-- Writing to a fresh path appends a new file entry. -/
theorem setFile_fresh :
    ∀ (l : List (FPath × List Char)) (p : FPath) (c : List Char),
      p ∉ l.map Prod.fst → setFile l p c = l ++ [(p, c)]
  | [], _, _, _ => rfl
  | (q, dd) :: rest, p, c, h => by
    have hqp : ¬ (q = p) := by
      intro h'
      subst h'
      exact h (by simp)
    simp only [setFile, if_neg hqp, List.cons_append]
    rw [setFile_fresh rest p c (fun hm => h (by simp [hm]))]

/-- Every non-empty prefix of the path (itself included) is a directory. -/
def prefixesIn (st : FsState) (d : FPath) : Prop :=
  ∀ i, 0 < i → i ≤ d.length → d.take i ∈ st.dirs

theorem mkdirsAlong_cons (st : FsState) (cur : FPath) (a : List Char)
    (rest : List (List Char)) :
    mkdirsAlong st cur (a :: rest)
      = mkdirsAlong (if (cur ++ [a]) ∈ st.dirs then st
          else { st with dirs := st.dirs ++ [cur ++ [a]] }) (cur ++ [a]) rest :=
  rfl

theorem mkdirsAlong_spec :
    ∀ (segs : List (List Char)) (cur : FPath) (st : FsState), segs ≠ [] →
      (∀ i, 0 < i → i < segs.length → cur ++ segs.take i ∈ st.dirs) →
      cur ++ segs ∉ st.dirs →
      mkdirsAlong st cur segs = { st with dirs := st.dirs ++ [cur ++ segs] }
  | [], _, _, hne, _, _ => absurd rfl hne
  | [a], cur, st, _, _, hlast => by
    rw [mkdirsAlong_cons, if_neg hlast]
    rfl
  | a :: b :: segs3, cur, st, _, hmid, hlast => by
    have hmem : cur ++ [a] ∈ st.dirs := by
      have := hmid 1 (by omega) (by simp)
      simpa using this
    rw [mkdirsAlong_cons, if_pos hmem]
    have hmid' : ∀ i, 0 < i → i < (b :: segs3).length →
        (cur ++ [a]) ++ (b :: segs3).take i ∈ st.dirs := by
      intro i h1 h2
      have := hmid (i + 1) (by omega)
        (by simp only [List.length_cons] at h2 ⊢; omega)
      rw [List.take_succ_cons] at this
      rw [List.append_assoc]
      simpa using this
    have hlast' : (cur ++ [a]) ++ (b :: segs3) ∉ st.dirs := by
      rw [List.append_assoc]
      simpa using hlast
    rw [mkdirsAlong_spec (b :: segs3) (cur ++ [a]) st (by simp) hmid' hlast']
    have : (cur ++ [a]) ++ (b :: segs3) = cur ++ (a :: b :: segs3) := by
      rw [List.append_assoc]
      rfl
    rw [this]

/-- Creating `d ++ [x]` when all prefixes of `d` exist and the target does
not appends exactly the target directory. -/
theorem mkdirRec_concat {st : FsState} {d : FPath} {x : List Char}
    (hd : prefixesIn st d) (hnew : d ++ [x] ∉ st.dirs) :
    mkdirRec (d ++ [x]) st = { st with dirs := st.dirs ++ [d ++ [x]] } := by
  have h := mkdirsAlong_spec (d ++ [x]) [] st (by simp) ?_ (by simpa using hnew)
  · rw [mkdirRec, h]
    simp
  · intro i h1 h2
    rw [List.nil_append]
    rw [List.length_append, List.length_singleton] at h2
    have hile : i ≤ d.length := by omega
    rw [List.take_append_of_le_length hile]
    exact hd i h1 hile

mutual
/-- A successful clone of one entry appends exactly the expected
directories and files to the store. -/
theorem cloneItem_spec (o n : List Char) :
    ∀ (e : FsTree) (d : FPath) (st : FsState),
      prefixesIn st d →
      (expDirsT n e d).Nodup →
      ((expFilesT o n e d).map Prod.fst).Nodup →
      (expDirsT n e d).Disjoint ((expFilesT o n e d).map Prod.fst) →
      (∀ q, q ∈ expDirsT n e d ∨ q ∈ (expFilesT o n e d).map Prod.fst →
        q ∉ st.dirs ∧ q ∉ st.files.map Prod.fst) →
      cloneItem o n e d st
        = ⟨st.dirs ++ expDirsT n e d, st.files ++ expFilesT o n e d⟩
  | FsTree.file nm c, d, st, hd, _, _, _, hfresh => by
    have hkey : (d ++ [renameItem nm n]) ∉ st.files.map Prod.fst :=
      (hfresh (d ++ [renameItem nm n]) (Or.inr (by simp [expFilesT]))).2
    have hpd : (d ++ [renameItem nm n]).dropLast = d := by
      rw [List.dropLast_concat]
    have hst1 : (if existsFS st ((d ++ [renameItem nm n]).dropLast) then st
        else mkdirRec ((d ++ [renameItem nm n]).dropLast) st) = st := by
      rw [hpd]
      rcases eq_or_ne d [] with rfl | hne
      · by_cases hex : existsFS st [] = true
        · rw [if_pos hex]
        · rw [if_neg hex]
          rfl
      · have hmem : d ∈ st.dirs := by
          have := hd d.length (List.length_pos.mpr hne) (le_refl _)
          rwa [List.take_length] at this
        rw [if_pos (existsFS_eq_true_of_dir hmem)]
    simp only [cloneItem, copyAndReplaceFile]
    rw [hst1, setFile_fresh st.files _ _ hkey]
    simp [expDirsT, expFilesT]
  | FsTree.dir nm sub, d, st, hd, hD, hF, hDF, hfresh => by
    simp only [expDirsT, expFilesT] at hD hF hDF hfresh ⊢
    have hnewdir := hfresh (d ++ [renameItem nm n])
      (Or.inl (List.mem_cons_self _ _))
    have hnodup := List.nodup_cons.mp hD
    have hheadF : (d ++ [renameItem nm n])
        ∉ (expFiles o n sub (d ++ [renameItem nm n])).map Prod.fst :=
      hDF (List.mem_cons_self _ _)
    have hst1 : (if existsFS st (d ++ [renameItem nm n]) then st
        else mkdirRec (d ++ [renameItem nm n]) st)
        = { st with dirs := st.dirs ++ [d ++ [renameItem nm n]] } := by
      rw [if_neg (by rw [existsFS_eq_false hnewdir.1 hnewdir.2]; simp),
        mkdirRec_concat hd hnewdir.1]
    have hrec := cloneItems_spec o n sub (d ++ [renameItem nm n])
      { st with dirs := st.dirs ++ [d ++ [renameItem nm n]] }
      ?_ hnodup.2 hF ?_ ?_
    · simp only [cloneItem]
      rw [hst1, hrec]
      simp [List.append_assoc]
    · -- prefixes of d ++ [renameItem nm n]
      intro i h1 h2
      simp only [List.length_append, List.length_singleton] at h2
      rcases Nat.lt_or_ge i (d.length + 1) with hlt | hge
      · by_cases hle : i ≤ d.length
        · rw [List.take_append_of_le_length hle]
          simp only []
          exact List.mem_append_left _ (hd i h1 hle)
        · omega
      · have hieq : i = d.length + 1 := by omega
        subst hieq
        rw [List.take_of_length_le (by simp)]
        exact List.mem_append_right _ (List.mem_singleton_self _)
    · -- disjointness for the sub-entries
      exact (List.disjoint_cons_left.mp hDF).2
    · -- freshness in the grown store
      intro q hq
      have hnot := hfresh q (by
        rcases hq with hq | hq
        · exact Or.inl (List.mem_cons_of_mem _ hq)
        · exact Or.inr hq)
      refine ⟨?_, hnot.2⟩
      simp only [List.mem_append, List.mem_singleton]
      rintro (hmem | rfl)
      · exact hnot.1 hmem
      · rcases hq with hq | hq
        · exact hnodup.1 hq
        · exact hheadF hq

/-- A successful clone of an entry list appends exactly the expected
directories and files to the store. -/
theorem cloneItems_spec (o n : List Char) :
    ∀ (es : FsEntries) (d : FPath) (st : FsState),
      prefixesIn st d →
      (expDirs n es d).Nodup →
      ((expFiles o n es d).map Prod.fst).Nodup →
      (expDirs n es d).Disjoint ((expFiles o n es d).map Prod.fst) →
      (∀ q, q ∈ expDirs n es d ∨ q ∈ (expFiles o n es d).map Prod.fst →
        q ∉ st.dirs ∧ q ∉ st.files.map Prod.fst) →
      cloneItems o n es d st
        = ⟨st.dirs ++ expDirs n es d, st.files ++ expFiles o n es d⟩
  | FsEntries.nil, d, st, _, _, _, _, _ => by
    simp [cloneItems, expDirs, expFiles]
  | FsEntries.cons e es, d, st, hd, hD, hF, hDF, hfresh => by
    simp only [expDirs, expFiles, List.map_append] at hD hF hDF hfresh ⊢
    have hDparts := List.nodup_append.mp hD
    have hFparts := List.nodup_append.mp hF
    have hDFparts := List.disjoint_append_left.mp hDF
    have hDF1 := List.disjoint_append_right.mp hDFparts.1
    have hDF2 := List.disjoint_append_right.mp hDFparts.2
    have hstep := cloneItem_spec o n e d st hd hDparts.1 hFparts.1 hDF1.1
      (fun q hq => hfresh q (by
        rcases hq with hq | hq
        · exact Or.inl (List.mem_append_left _ hq)
        · exact Or.inr (List.mem_append_left _ hq)))
    have hrec := cloneItems_spec o n es d
      ⟨st.dirs ++ expDirsT n e d, st.files ++ expFilesT o n e d⟩
      ?_ hDparts.2.1 hFparts.2.1 hDF2.2 ?_
    · rw [cloneItems, hstep, hrec]
      simp [List.append_assoc]
    · -- prefixes survive appending directories
      intro i h1 h2
      exact List.mem_append_left _ (hd i h1 h2)
    · -- freshness for the remaining entries
      intro q hq
      have hnot := hfresh q (by
        rcases hq with hq | hq
        · exact Or.inl (List.mem_append_right _ hq)
        · exact Or.inr (List.mem_append_right _ hq))
      constructor
      · simp only [List.mem_append]
        rintro (hmem | hmem)
        · exact hnot.1 hmem
        · rcases hq with hq | hq
          · exact absurd hq (hDparts.2.2 hmem)
          · exact absurd hq (hDF1.2 hmem)
      · simp only [List.map_append, List.mem_append]
        rintro (hmem | hmem)
        · exact hnot.2 hmem
        · rcases hq with hq | hq
          · exact absurd hmem (hDF2.1 hq)
          · exact absurd hq (hFparts.2.2 hmem)
end

mutual
theorem expFilesT_length (o n : List Char) :
    ∀ (e : FsTree) (d : FPath), (expFilesT o n e d).length = countFilesT e
  | FsTree.file nm c, d => by simp [expFilesT, countFilesT]
  | FsTree.dir nm sub, d => by
    simp only [expFilesT, countFilesT]
    exact expFiles_length o n sub _
theorem expFiles_length (o n : List Char) :
    ∀ (es : FsEntries) (d : FPath), (expFiles o n es d).length = countFiles es
  | FsEntries.nil, _ => rfl
  | FsEntries.cons e es, d => by
    simp only [expFiles, countFiles, List.length_append]
    rw [expFilesT_length o n e d, expFiles_length o n es d]
end

mutual
theorem expDirsT_length (n : List Char) :
    ∀ (e : FsTree) (d : FPath), (expDirsT n e d).length = countDirsT e
  | FsTree.file nm c, d => by simp [expDirsT, countDirsT]
  | FsTree.dir nm sub, d => by
    simp only [expDirsT, countDirsT, List.length_cons]
    rw [expDirs_length n sub _]
    omega
theorem expDirs_length (n : List Char) :
    ∀ (es : FsEntries) (d : FPath), (expDirs n es d).length = countDirs es
  | FsEntries.nil, _ => rfl
  | FsEntries.cons e es, d => by
    simp only [expDirs, countDirs, List.length_append]
    rw [expDirsT_length n e d, expDirs_length n es d]
end

mutual
theorem expFilesT_eq_src (o n : List Char) :
    ∀ (e : FsTree) (d : FPath),
      expFilesT o n e d = (srcFilesRelT e).map
        (fun pc => (d ++ pc.1.map (fun s => renameItem s n),
          replaceProjectNames pc.2 o n))
  | FsTree.file nm c, d => by simp [expFilesT, srcFilesRelT]
  | FsTree.dir nm sub, d => by
    simp only [expFilesT, srcFilesRelT, List.map_map]
    rw [expFiles_eq_src o n sub (d ++ [renameItem nm n])]
    congr 1
    funext pc
    simp [Function.comp, List.append_assoc]
theorem expFiles_eq_src (o n : List Char) :
    ∀ (es : FsEntries) (d : FPath),
      expFiles o n es d = (srcFilesRel es).map
        (fun pc => (d ++ pc.1.map (fun s => renameItem s n),
          replaceProjectNames pc.2 o n))
  | FsEntries.nil, _ => rfl
  | FsEntries.cons e es, d => by
    simp only [expFiles, srcFilesRel, List.map_append]
    rw [expFilesT_eq_src o n e d, expFiles_eq_src o n es d]
end

mutual
theorem expDirsT_eq_src (n : List Char) :
    ∀ (e : FsTree) (d : FPath),
      expDirsT n e d = (srcDirsRelT e).map
        (fun p => d ++ p.map (fun s => renameItem s n))
  | FsTree.file nm c, d => by simp [expDirsT, srcDirsRelT]
  | FsTree.dir nm sub, d => by
    simp only [expDirsT, srcDirsRelT, List.map_cons, List.map_map]
    rw [expDirs_eq_src n sub (d ++ [renameItem nm n])]
    refine congrArg₂ List.cons (by simp) ?_
    exact congrArg (fun f => List.map f (srcDirsRel sub))
      (funext fun p => by simp [Function.comp, List.append_assoc])
theorem expDirs_eq_src (n : List Char) :
    ∀ (es : FsEntries) (d : FPath),
      expDirs n es d = (srcDirsRel es).map
        (fun p => d ++ p.map (fun s => renameItem s n))
  | FsEntries.nil, _ => rfl
  | FsEntries.cons e es, d => by
    simp only [expDirs, srcDirsRel, List.map_append]
    rw [expDirsT_eq_src n e d, expDirs_eq_src n es d]
end

mutual
theorem expDirsT_longer (n : List Char) :
    ∀ (e : FsTree) (d : FPath) (q : FPath),
      q ∈ expDirsT n e d → d.length < q.length
  | FsTree.file _ _, d, q, hq => by simp [expDirsT] at hq
  | FsTree.dir nm sub, d, q, hq => by
    simp only [expDirsT, List.mem_cons] at hq
    rcases hq with rfl | hq
    · simp
    · have := expDirs_longer n sub (d ++ [renameItem nm n]) q hq
      simp only [List.length_append, List.length_singleton] at this
      omega
theorem expDirs_longer (n : List Char) :
    ∀ (es : FsEntries) (d : FPath) (q : FPath),
      q ∈ expDirs n es d → d.length < q.length
  | FsEntries.nil, _, _, hq => by simp [expDirs] at hq
  | FsEntries.cons e es, d, q, hq => by
    simp only [expDirs, List.mem_append] at hq
    rcases hq with hq | hq
    · exact expDirsT_longer n e d q hq
    · exact expDirs_longer n es d q hq
end

mutual
theorem expFilesT_longer (o n : List Char) :
    ∀ (e : FsTree) (d : FPath) (q : FPath),
      q ∈ (expFilesT o n e d).map Prod.fst → d.length < q.length
  | FsTree.file nm c, d, q, hq => by
    simp only [expFilesT, List.map_cons, List.map_nil, List.mem_singleton] at hq
    subst hq
    simp
  | FsTree.dir nm sub, d, q, hq => by
    simp only [expFilesT] at hq
    have := expFiles_longer o n sub (d ++ [renameItem nm n]) q hq
    simp only [List.length_append, List.length_singleton] at this
    omega
theorem expFiles_longer (o n : List Char) :
    ∀ (es : FsEntries) (d : FPath) (q : FPath),
      q ∈ (expFiles o n es d).map Prod.fst → d.length < q.length
  | FsEntries.nil, _, _, hq => by simp [expFiles] at hq
  | FsEntries.cons e es, d, q, hq => by
    simp only [expFiles, List.map_append, List.mem_append] at hq
    rcases hq with hq | hq
    · exact expFilesT_longer o n e d q hq
    · exact expFiles_longer o n es d q hq
end

/-- C4 (counterexample): a template whose renaming maps two sibling files
to the same destination name (`sns-demo` and `zoo` under target `zoo`):
the clone succeeds but the destination holds one file, not two — the
second write silently overwrites the first. -/
theorem copyAndReplaceDir_counterexample :
    countFiles (FsEntries.cons (FsTree.file "sns-demo".toList "a".toList)
      (FsEntries.cons (FsTree.file "zoo".toList "b".toList)
        FsEntries.nil)) = 2
  ∧ (copyAndReplaceDir "demo".toList "zoo".toList
      (FsEntries.cons (FsTree.file "sns-demo".toList "a".toList)
        (FsEntries.cons (FsTree.file "zoo".toList "b".toList)
          FsEntries.nil))
      ["zoo".toList] ⟨[], []⟩).files.length = 1 :=
  ⟨by decide, by decide⟩

/-- C4 (amended): for every template tree whose renamed destination paths
are pairwise distinct, cloning into a fresh destination produces exactly
the source's file count, the source's directory count (plus the destination
root), every file at its per-segment-renamed path with content equal to the
Token Rewriter applied to the source content, and every directory at its
renamed path. -/
theorem copyAndReplaceDir_spec (o n tgt : List Char) (src : FsEntries)
    (hnodup : (expDirs n src [tgt]
      ++ (expFiles o n src [tgt]).map Prod.fst).Nodup) :
    (copyAndReplaceDir o n src [tgt] ⟨[], []⟩).files.length = countFiles src
  ∧ (copyAndReplaceDir o n src [tgt] ⟨[], []⟩).dirs.length = countDirs src + 1
  ∧ (copyAndReplaceDir o n src [tgt] ⟨[], []⟩).files
      = (srcFilesRel src).map (fun pc =>
          ([tgt] ++ pc.1.map (fun s => renameItem s n),
            replaceProjectNames pc.2 o n))
  ∧ (copyAndReplaceDir o n src [tgt] ⟨[], []⟩).dirs
      = [tgt] :: (srcDirsRel src).map (fun p =>
          [tgt] ++ p.map (fun s => renameItem s n)) := by
  obtain ⟨hD, hF, hDF⟩ := List.nodup_append.mp hnodup
  have hmain : copyAndReplaceDir o n src [tgt] ⟨[], []⟩
      = ⟨[[tgt]] ++ expDirs n src [tgt], [] ++ expFiles o n src [tgt]⟩ := by
    have hmk : (if existsFS ⟨[], []⟩ [tgt] then (⟨[], []⟩ : FsState)
        else mkdirRec [tgt] ⟨[], []⟩) = ⟨[[tgt]], []⟩ := by
      rw [if_neg (by rw [existsFS_eq_false (by simp) (by simp)]; simp)]
      rfl
    show cloneItems o n src [tgt] _ = _
    rw [hmk]
    exact cloneItems_spec o n src [tgt] ⟨[[tgt]], []⟩
      (by
        intro i h1 h2
        simp only [List.length_singleton] at h2
        have : i = 1 := by omega
        subst this
        simp)
      hD hF hDF
      (by
        intro q hq
        constructor
        · simp only [List.mem_singleton]
          rintro rfl
          rcases hq with hq | hq
          · have := expDirs_longer n src [tgt] [tgt] hq
            simp at this
          · have := expFiles_longer o n src [tgt] [tgt] hq
            simp at this
        · simp)
  rw [hmain]
  refine ⟨?_, ?_, ?_, ?_⟩
  · simp [expFiles_length]
  · simp [expDirs_length]
  · simp [expFiles_eq_src]
  · simp only [List.nil_append, List.singleton_append]
    rw [expDirs_eq_src]
    simp [List.singleton_append]

/-- C4 (witness): a concrete two-entry template clones to the expected
counts and contents. -/
theorem copyAndReplaceDir_spec_witness :
    (copyAndReplaceDir "demo".toList "zoo".toList
        (FsEntries.cons (FsTree.file "pom.xml".toList
          "<artifactId>sns-demo</artifactId>".toList)
          (FsEntries.cons (FsTree.dir "sns-demo-app".toList
            (FsEntries.cons (FsTree.file "pom.xml".toList "b".toList)
              FsEntries.nil))
            FsEntries.nil))
        ["zoo".toList] ⟨[], []⟩).files.length
      = countFiles (FsEntries.cons (FsTree.file "pom.xml".toList
          "<artifactId>sns-demo</artifactId>".toList)
          (FsEntries.cons (FsTree.dir "sns-demo-app".toList
            (FsEntries.cons (FsTree.file "pom.xml".toList "b".toList)
              FsEntries.nil))
            FsEntries.nil))
  ∧ (copyAndReplaceDir "demo".toList "zoo".toList
        (FsEntries.cons (FsTree.file "pom.xml".toList
          "<artifactId>sns-demo</artifactId>".toList)
          (FsEntries.cons (FsTree.dir "sns-demo-app".toList
            (FsEntries.cons (FsTree.file "pom.xml".toList "b".toList)
              FsEntries.nil))
            FsEntries.nil))
        ["zoo".toList] ⟨[], []⟩).dirs.length
      = countDirs (FsEntries.cons (FsTree.file "pom.xml".toList
          "<artifactId>sns-demo</artifactId>".toList)
          (FsEntries.cons (FsTree.dir "sns-demo-app".toList
            (FsEntries.cons (FsTree.file "pom.xml".toList "b".toList)
              FsEntries.nil))
            FsEntries.nil)) + 1 := by
  have h := copyAndReplaceDir_spec "demo".toList "zoo".toList "zoo".toList
    (FsEntries.cons (FsTree.file "pom.xml".toList
      "<artifactId>sns-demo</artifactId>".toList)
      (FsEntries.cons (FsTree.dir "sns-demo-app".toList
        (FsEntries.cons (FsTree.file "pom.xml".toList "b".toList)
          FsEntries.nil))
        FsEntries.nil))
    (by decide)
  exact ⟨h.1, h.2.1⟩

/-- The two message kinds the command emits (`MessageType.INFO` /
`MessageType.ERROR`). -/
inductive UiMsgType where
  | info
  | error
  deriving DecidableEq

/-- The user-facing messages of the cloning command action, abstracted from
their literal texts. -/
inductive UiMsg where
  | invalidName
  | templateMissing
  | destExists (p : FPath)
  | startCreate (nm : List Char)
  | createSuccess (nm : List Char)
  | createFailed (e : List Char)
  deriving DecidableEq

/-- A message item added through `context.ui.addItem`. -/
structure UiItem where
  type : UiMsgType
  msg : UiMsg
  deriving DecidableEq

/-- Oracle for the fallible parts of the clone step: whether
`copyAndReplaceDir` throws (and with which message), the store observed
after the failure, and whether `fs.rmSync` itself throws. -/
structure CloneFx where
  cloneFails : Option (List Char)
  stAfterFail : FsState
  rmFails : Bool

/-- The observable outcome of one invocation of the cloning command. -/
structure ActionOut where
  items : List UiItem
  warned : Bool
  attemptedRm : Bool
  cloneRan : Bool
  fs : FsState
  deriving DecidableEq

/-- Embedding of `fs.rmSync(p, { recursive: true, force: true })`: remove
the path and everything below it. -/
def removeTree (p : FPath) (st : FsState) : FsState :=
  ⟨st.dirs.filter (fun q => !(leadsWith p q)),
   st.files.filter (fun qc => !(leadsWith p qc.1))⟩

/-- Embedding of the cloning variant's `createCommand.action`: validate the
name, check the template, check the destination, then clone; on a clone
failure, remove the partial destination if it exists (warning if removal
itself fails) and emit the original failure as an error. -/
def createAction (nm : List Char) (tmplExists : Bool) (tmpl : FsEntries)
    (st : FsState) (fx : CloneFx) : ActionOut :=
  if validateProjectName nm = false then
    ⟨[⟨UiMsgType.error, UiMsg.invalidName⟩], false, false, false, st⟩
  else if tmplExists = false then
    ⟨[⟨UiMsgType.error, UiMsg.templateMissing⟩], false, false, false, st⟩
  else if existsFS st [nm] then
    ⟨[⟨UiMsgType.error, UiMsg.destExists [nm]⟩], false, false, false, st⟩
  else
    match fx.cloneFails with
    | none =>
      ⟨[⟨UiMsgType.info, UiMsg.startCreate nm⟩,
        ⟨UiMsgType.info, UiMsg.createSuccess nm⟩], false, false, true,
        copyAndReplaceDir "demo".toList nm tmpl [nm] st⟩
    | some e =>
      if existsFS fx.stAfterFail [nm] then
        if fx.rmFails then
          ⟨[⟨UiMsgType.info, UiMsg.startCreate nm⟩,
            ⟨UiMsgType.error, UiMsg.createFailed e⟩], true, true, true,
            fx.stAfterFail⟩
        else
          ⟨[⟨UiMsgType.info, UiMsg.startCreate nm⟩,
            ⟨UiMsgType.error, UiMsg.createFailed e⟩], false, true, true,
            removeTree [nm] fx.stAfterFail⟩
      else
        ⟨[⟨UiMsgType.info, UiMsg.startCreate nm⟩,
          ⟨UiMsgType.error, UiMsg.createFailed e⟩], false, false, true,
          fx.stAfterFail⟩

/-- C6: whenever the clone step fails, the orchestrator attempts the
recursive removal of the destination when it exists; if the removal itself
fails a cleanup warning is surfaced in addition; and in every failure case
the original clone error is emitted as a user-facing error. -/
theorem createAction_cleanup (nm : List Char) (tmpl : FsEntries)
    (st : FsState) (fx : CloneFx) (e : List Char)
    (hv : validateProjectName nm = true)
    (hdest : existsFS st [nm] = false)
    (hfail : fx.cloneFails = some e) :
    (existsFS fx.stAfterFail [nm] = true →
      (createAction nm true tmpl st fx).attemptedRm = true)
  ∧ ((createAction nm true tmpl st fx).attemptedRm = true →
      fx.rmFails = true → (createAction nm true tmpl st fx).warned = true)
  ∧ ⟨UiMsgType.error, UiMsg.createFailed e⟩
      ∈ (createAction nm true tmpl st fx).items := by
  by_cases h1 : existsFS fx.stAfterFail [nm] = true <;>
    by_cases h2 : fx.rmFails = true <;>
      simp [createAction, hv, hdest, hfail, h1, h2]

/-- C6 (witness): a failed clone with a surviving partial destination and a
failing removal attempts the removal, warns, and still reports the original
error. -/
theorem createAction_cleanup_witness :
    (createAction "zoo".toList true FsEntries.nil ⟨[], []⟩
      ⟨some "disk full".toList, ⟨[["zoo".toList]], []⟩, true⟩).attemptedRm
      = true
  ∧ (createAction "zoo".toList true FsEntries.nil ⟨[], []⟩
      ⟨some "disk full".toList, ⟨[["zoo".toList]], []⟩, true⟩).warned = true
  ∧ ⟨UiMsgType.error, UiMsg.createFailed "disk full".toList⟩
      ∈ (createAction "zoo".toList true FsEntries.nil ⟨[], []⟩
        ⟨some "disk full".toList, ⟨[["zoo".toList]], []⟩, true⟩).items := by
  have h := createAction_cleanup "zoo".toList FsEntries.nil ⟨[], []⟩
    ⟨some "disk full".toList, ⟨[["zoo".toList]], []⟩, true⟩ "disk full".toList
    (by decide) (by decide) rfl
  exact ⟨h.1 (by decide), h.2.1 (h.1 (by decide)) rfl, h.2.2⟩

/-- C7 (counterexample): an invocation whose target path exists but whose
name fails validation emits the validation error, not a collision error, so
the collision error is not emitted for every invocation with an existing
target. -/
theorem createAction_collision_counterexample :
    existsFS ⟨[["Bad".toList]], []⟩ ["Bad".toList] = true
  ∧ (createAction "Bad".toList true FsEntries.nil ⟨[["Bad".toList]], []⟩
      ⟨none, ⟨[], []⟩, false⟩).items
      = [⟨UiMsgType.error, UiMsg.invalidName⟩]
  ∧ (⟨UiMsgType.error, UiMsg.destExists ["Bad".toList]⟩ : UiItem)
      ∉ (createAction "Bad".toList true FsEntries.nil ⟨[["Bad".toList]], []⟩
        ⟨none, ⟨[], []⟩, false⟩).items :=
  ⟨by decide, by decide, by decide⟩

/-- C7 (amended): an invocation whose target path already exists never runs
the clone and leaves the filesystem untouched; when the name validates and
the template exists it emits exactly the collision error. -/
theorem createAction_collision (nm : List Char) (tmplEx : Bool)
    (tmpl : FsEntries) (st : FsState) (fx : CloneFx)
    (hex : existsFS st [nm] = true) :
    (createAction nm tmplEx tmpl st fx).fs = st
  ∧ (createAction nm tmplEx tmpl st fx).cloneRan = false
  ∧ (validateProjectName nm = true → tmplEx = true →
      (createAction nm tmplEx tmpl st fx).items
        = [⟨UiMsgType.error, UiMsg.destExists [nm]⟩]) := by
  cases hv : validateProjectName nm with
  | false => simp [createAction, hv]
  | true =>
    cases tmplEx with
    | false => simp [createAction, hv]
    | true => simp [createAction, hv, hex]

/-- C7 (witness): a concrete collision leaves the store unchanged and
emits the collision error. -/
theorem createAction_collision_witness :
    (createAction "zoo".toList true FsEntries.nil ⟨[["zoo".toList]], []⟩
      ⟨none, ⟨[], []⟩, false⟩).fs = ⟨[["zoo".toList]], []⟩
  ∧ (createAction "zoo".toList true FsEntries.nil ⟨[["zoo".toList]], []⟩
      ⟨none, ⟨[], []⟩, false⟩).cloneRan = false
  ∧ (createAction "zoo".toList true FsEntries.nil ⟨[["zoo".toList]], []⟩
      ⟨none, ⟨[], []⟩, false⟩).items
      = [⟨UiMsgType.error, UiMsg.destExists ["zoo".toList]⟩] := by
  have h := createAction_collision "zoo".toList true FsEntries.nil
    ⟨[["zoo".toList]], []⟩ ⟨none, ⟨[], []⟩, false⟩ (by decide)
  exact ⟨h.1, h.2.1, h.2.2 (by decide) rfl⟩

/-- The six expected descriptor (POM) files of the generator-driven
variant, relative to the working directory. -/
def pomPaths (nm : List Char) : List FPath :=
  [[nm ++ "-parent".toList, "pom.xml".toList],
   [nm ++ "-parent".toList, nm ++ "-app".toList, "pom.xml".toList],
   [nm ++ "-parent".toList, nm ++ "-domain".toList, "pom.xml".toList],
   [nm ++ "-parent".toList, nm ++ "-infrastructure".toList, "pom.xml".toList],
   [nm ++ "-parent".toList, nm ++ "-common".toList, "pom.xml".toList],
   [nm ++ "-parent".toList, nm ++ "-start".toList, "pom.xml".toList]]

/-- The three non-descriptor files of phase two (the entry-point source
file, the readme and the ignore-rules file), as named in the instruction
payloads. -/
def nonPomPaths (nm : List Char) : List FPath :=
  [[nm ++ "-parent".toList, nm ++ "-start".toList, "src".toList,
    "main".toList, "java".toList, "com".toList, "xiaohongshu".toList,
    "sns".toList, nm.filter (fun c => c != '-'), "start".toList,
    "Application.java".toList],
   [nm ++ "-parent".toList, "README.md".toList],
   [nm ++ "-parent".toList, ".gitignore".toList]]

/-- Embedding of the `allPomsExist` probe of the generator-driven variant:
the root descriptor and one descriptor per each of the five fixed module
names must all exist. -/
def allPomsExist (ex : FPath → Bool) (nm : List Char) : Bool :=
  ex [nm ++ "-parent".toList, "pom.xml".toList] &&
  ex [nm ++ "-parent".toList, nm ++ "-app".toList, "pom.xml".toList] &&
  ex [nm ++ "-parent".toList, nm ++ "-domain".toList, "pom.xml".toList] &&
  ex [nm ++ "-parent".toList, nm ++ "-infrastructure".toList, "pom.xml".toList] &&
  ex [nm ++ "-parent".toList, nm ++ "-common".toList, "pom.xml".toList] &&
  ex [nm ++ "-parent".toList, nm ++ "-start".toList, "pom.xml".toList]

/-- C5: phase detection is true exactly when all six descriptor files
exist, and its value never depends on the three non-descriptor files. -/
theorem allPomsExist_spec (ex : FPath → Bool) (nm : List Char) :
    (allPomsExist ex nm = true ↔ ∀ p ∈ pomPaths nm, ex p = true)
  ∧ (∀ b : Bool, allPomsExist
      (fun p => if p ∈ nonPomPaths nm then b else ex p) nm
      = allPomsExist ex nm) := by
  have hmem_ne : ∀ (x : FPath), x ∈ pomPaths nm → x ∉ nonPomPaths nm := by
    intro x hx hmem
    have h1 : x.getLast? = some "pom.xml".toList := by
      simp only [pomPaths, List.mem_cons, List.mem_singleton,
        List.not_mem_nil, or_false] at hx
      rcases hx with rfl | rfl | rfl | rfl | rfl | rfl <;> rfl
    have h2 : x.getLast? = some "Application.java".toList
        ∨ x.getLast? = some "README.md".toList
        ∨ x.getLast? = some ".gitignore".toList := by
      simp only [nonPomPaths, List.mem_cons, List.mem_singleton,
        List.not_mem_nil, or_false] at hmem
      rcases hmem with rfl | rfl | rfl
      · exact Or.inl rfl
      · exact Or.inr (Or.inl rfl)
      · exact Or.inr (Or.inr rfl)
    rcases h2 with h2 | h2 | h2 <;> rw [h1] at h2 <;>
      exact absurd h2 (by decide)
  constructor
  · simp only [allPomsExist, pomPaths, Bool.and_eq_true, List.forall_mem_cons,
      List.forall_mem_ne, List.not_mem_nil]
    constructor
    · intro h
      exact ⟨h.1.1.1.1.1, h.1.1.1.1.2, h.1.1.1.2, h.1.1.2, h.1.2, h.2,
        fun x hx => hx.elim⟩
    · intro h
      exact ⟨⟨⟨⟨⟨h.1, h.2.1⟩, h.2.2.1⟩, h.2.2.2.1⟩, h.2.2.2.2.1⟩, h.2.2.2.2.2.1⟩
  · intro b
    simp only [allPomsExist]
    rw [if_neg (hmem_ne _ (by simp [pomPaths])),
      if_neg (hmem_ne _ (by simp [pomPaths])),
      if_neg (hmem_ne _ (by simp [pomPaths])),
      if_neg (hmem_ne _ (by simp [pomPaths])),
      if_neg (hmem_ne _ (by simp [pomPaths])),
      if_neg (hmem_ne _ (by simp [pomPaths]))]

/-- C5 (witness): on a store where every path exists, all six descriptors
are detected. -/
theorem allPomsExist_spec_witness :
    allPomsExist (fun _ => true) "zoo".toList = true :=
  (allPomsExist_spec (fun _ => true) "zoo".toList).1.mpr
    (fun p _ => rfl)

/-- Messages of the generator-driven command action, abstracted from their
literal texts. -/
inductive GenMsg where
  | invalidName
  | creatingRemaining
  | creatingPoms
  deriving DecidableEq

/-- The `submit_prompt` payload returned to the external generator: one of
the two instruction documents, parameterized by the project name. -/
inductive GenPayload where
  | remainingFiles (nm : List Char)
  | pomFiles (nm : List Char)
  deriving DecidableEq

/-- The observable outcome of the generator-driven command action. -/
structure GenOut where
  items : List (UiMsgType × GenMsg)
  payload : Option GenPayload
  fs : FsState

/-- Embedding of the generator-driven `createCommand.action`: validate the
name, probe the descriptor files, and return either the phase-two or the
phase-one instruction payload; the store is only read, never written. -/
def createActionGen (nm : List Char) (st : FsState) : GenOut :=
  if validateProjectName nm = false then
    ⟨[(UiMsgType.error, GenMsg.invalidName)], none, st⟩
  else if allPomsExist (fun p => existsFS st p) nm then
    ⟨[(UiMsgType.info, GenMsg.creatingRemaining)],
      some (GenPayload.remainingFiles nm), st⟩
  else
    ⟨[(UiMsgType.info, GenMsg.creatingPoms)],
      some (GenPayload.pomFiles nm), st⟩

/-- C9: the generator-driven command performs no filesystem writes — the
store it returns is the store it was given — and it always reports exactly
one message, returning an instruction payload whenever the name is
valid. -/
theorem createActionGen_no_writes (nm : List Char) (st : FsState) :
    (createActionGen nm st).fs = st
  ∧ (createActionGen nm st).items.length = 1
  ∧ (validateProjectName nm = true →
      (createActionGen nm st).payload.isSome = true) := by
  unfold createActionGen
  split
  · rename_i hv
    simp [hv]
  · split <;> simp

/-- C9 (witness): a concrete valid invocation leaves the store unchanged
and returns a payload. -/
theorem createActionGen_no_writes_witness :
    (createActionGen "zoo".toList ⟨[], []⟩).fs = ⟨[], []⟩
  ∧ (createActionGen "zoo".toList ⟨[], []⟩).payload.isSome = true :=
  ⟨(createActionGen_no_writes "zoo".toList ⟨[], []⟩).1,
   (createActionGen_no_writes "zoo".toList ⟨[], []⟩).2.2 (by decide)⟩
